import Mathlib

/-!
Shallow embedding of the two tutorial scripts of the `qml` repository:
`src/demonstrations/tutorial_univariate_qvr.py` (Quantum Variational
Rewinding) and `src/demonstrations/tutorial_quantum_chemistry.py`.

Modelling conventions:
* torch 1-D tensors become `List K` over a linear ordered field `K`
  (instantiated with `ℝ` in the analytic statements and with `ℚ` in the
  executable witnesses); the ±1 label tensors become `List ℤ`;
  `tensor.mean()` becomes `listMean` (sum divided by length).
* the external quantum-circuit simulator is abstracted: the measured
  projector `callable_proj` is an arbitrary function parameter.
* randomness is made explicit: the standard-normal draws produced by
  `torch.randn` inside `F` are an explicit argument (one matrix of draws
  per call of `F`), and the shuffling done by `torch.utils.data.DataLoader`
  is an explicit function argument of the `DataGetter` step.
* the torch optimizer (`torch.optim.Adam`) is abstracted as an arbitrary
  parameter-update function; the pennylane `qchem` package is not part of
  this repository and is modelled from the spec (see `QChem` below).
-/

namespace QVR

variable {K : Type} [LinearOrderedField K]

/-- The torch `tensor.mean()` on a 1-D tensor: sum divided by length
(`0` for the empty tensor, where torch would give NaN). -/
def listMean (l : List K) : K := l.sum / l.length

/-- Embedding of `F` (tutorial_univariate_qvr.py, lines 530-537):
`gammas = sigma.abs() * torch.randn((n_samples, gamma_length)) + mu`,
then the mean over the sampled `gamma` rows of
`callable_proj(xt, t, alpha, gamma)`.  The matrix of standard-normal
draws (`n_samples` rows of length `gamma_length`) is the explicit
argument `randn`; `alpha` is an opaque parameter tensor of type `A`. -/
def F {A : Type} (callable_proj : K → K → A → List K → K) (xt t : K)
    (alpha : A) (mu sigma : K) (randn : List (List K)) : K :=
  listMean (randn.map (fun z => callable_proj xt t alpha
    (z.map (fun zj => |sigma| * zj + mu))))

/-- Embedding of `callable_arctan_penalty` (lines 551-555):
`(1/pi) * arctan(2 * pi * tau * sigma.abs()).mean()`; `sigma` is a
1-element tensor, so the mean is the single entry itself.  This is the
one genuinely real-analytic definition of the file, so it lives at `ℝ`;
it is only ever applied through the `callable_penalty` parameter of
`get_loss`. -/
noncomputable def callable_arctan_penalty (tau : ℝ) : ℝ → ℝ :=
  fun sigma => (1 / Real.pi) * Real.arctan (2 * Real.pi * tau * |sigma|)

/-- Embedding of `get_loss` (lines 565-584): over the batch rows `i`,
`loss[i] = (1 - F(callable_proj, X_batch[i], T_batch[i], alpha, mu,
sigma, gamma_length, n_samples))^2`, and the result is
`0.5 * loss.mean() + callable_penalty(sigma)`.  Each call of `F`
consumes a fresh matrix of normal draws, listed in `randns`. -/
def get_loss {A : Type} (callable_proj : K → K → A → List K → K)
    (batch : List K × List K) (alpha : A) (mu sigma : K)
    (randns : List (List (List K))) (callable_penalty : K → K) : K :=
  let X_batch := batch.1
  let T_batch := batch.2
  (1 / 2) * listMean ((List.range X_batch.length).map (fun i =>
      (1 - F callable_proj (X_batch.getD i 0) (T_batch.getD i 0)
          alpha mu sigma (randns.getD i [])) ^ 2))
    + callable_penalty sigma

/-- Result of `get_anomaly_score`: the Python function returns either the
pair `(score, score.mean())` (when `get_time_resolved` is true) or the
bare mean. -/
inductive ScoreResult (K : Type) where
  | timeResolved (score : List K) (mean : K)
  | meanOnly (mean : K)

/-- Embedding of `get_anomaly_score` (lines 833-863): for each index `i`
of the time grid `T`, `score[i] = (1 - F(callable_proj, x[i], T[i],
alpha_star, mu_star, sigma_star, gamma_length, n_samples))^2`; returns
`score.mean()` when `get_time_resolved=False`, else the pair. -/
def get_anomaly_score {A : Type} (callable_proj : K → K → A → List K → K)
    (x T : List K) (alpha_star : A) (mu_star sigma_star : K)
    (randns : List (List (List K))) (get_time_resolved : Bool) : ScoreResult K :=
  let score := (List.range T.length).map (fun i =>
    (1 - F callable_proj (x.getD i 0) (T.getD i 0)
        alpha_star mu_star sigma_star (randns.getD i [])) ^ 2)
  if get_time_resolved then
    ScoreResult.timeResolved score (listMean score)
  else
    ScoreResult.meanOnly (listMean score)

/-- A gate emitted by the circuit-building function `D`: either an `RZ`
rotation (`qml.RZ(theta, wires=[w])`) or a `CNOT` on a pair of wires
(`qml.CNOT(wires=[c, t])`).  The rotation angle lives in the field `K`. -/
inductive Gate (K : Type) where
  | rz (theta : K) (wire : ℕ)
  | cnot (control target : ℕ)
deriving DecidableEq, Repr

/-- Embedding of `itertools.combinations`: the size-`i` subsets of a list, each kept in
the list's order, enumerated lexicographically (subsets containing the
head first). -/
def combinations : ℕ → List ℕ → List (List ℕ)
  | 0, _ => [[]]
  | _ + 1, [] => []
  | i + 1, x :: xs =>
      (combinations i xs).map (fun c => x :: c) ++ combinations (i + 1) xs

/-- The consecutive pairs of a list:
`cnots = [comb[i : i + 2] for i in range(len(comb) - 1)]` in `D`. -/
def consecutive_pairs : List ℕ → List (ℕ × ℕ)
  | a :: b :: rest => (a, b) :: consecutive_pairs (b :: rest)
  | [_] => []
  | [] => []

/-- The chain of `CNOT` gates along the consecutive pairs of a subset. -/
def cnot_chain (K : Type) (comb : List ℕ) : List (Gate K) :=
  (consecutive_pairs comb).map (fun p => Gate.cnot p.1 p.2)

/-- The gates `D` emits for a single subset `comb`, with rotation angle
`theta = gamma[cnt]`: a bare `RZ` for a singleton, and for a larger
subset the `CNOT` chain, one `RZ` on the last element, and the chain
reversed; nothing for the empty subset (which `D` never produces). -/
def comb_gates (theta : K) (comb : List ℕ) : List (Gate K) :=
  match comb with
  | [] => []
  | [q] => [Gate.rz theta q]
  | q :: q' :: qs =>
      cnot_chain K (q :: q' :: qs)
        ++ [Gate.rz theta ((q :: q' :: qs).getLast (List.cons_ne_nil q (q' :: qs)))]
        ++ (cnot_chain K (q :: q' :: qs)).reverse

/-- The inner double loop of `D`, threading the counter `cnt` that indexes
into `gamma`; returns the emitted gates and the final counter value. -/
def D_go (gamma : ℕ → K) (cnt : ℕ) : List (List ℕ) → List (Gate K) × ℕ
  | [] => ([], cnt)
  | comb :: rest =>
      match comb with
      | [] => D_go gamma cnt rest
      | _ :: _ =>
          let g := comb_gates (gamma cnt) comb
          let r := D_go gamma (cnt + 1) rest
          (g ++ r.1, r.2)

/-- The full subset enumeration of `D`:
`for i in range(1, k + 1): for comb in combinations(range(n), i)`. -/
def D_combs (n k : ℕ) : List (List ℕ) :=
  (List.range' 1 k).flatMap (fun i => combinations i (List.range n))

/-- Embedding of `D` (tutorial_univariate_qvr.py, lines 434-463): the
limited Walsh-operator expansion circuit.  `gamma` is the tensor of
variational parameters (indexed, as in torch, by position), `n` the
number of qubits, `k` the locality (`None` defaults to `n`).  Returns
the emitted gate list together with the number of entries of `gamma`
that were consumed (the final value of `cnt`). -/
def D (gamma : ℕ → K) (n : ℕ) (k : Option ℕ) : List (Gate K) × ℕ :=
  D_go gamma 0 (D_combs n (k.getD n))

/-- Specification form for claim C3: one gate block per subset, the `j`-th
block using `gamma j`, blocks concatenated in subset-enumeration order. -/
def walsh_blocks (gamma : ℕ → K) (combs : List (List ℕ)) : List (Gate K) :=
  (combs.enum.map (fun p => comb_gates (gamma p.1) p.2)).flatten

/-- The number of `RZ` gates in a gate list. -/
def countRZ (gs : List (Gate K)) : ℕ :=
  gs.countP (fun g => match g with | Gate.rz _ _ => true | _ => false)

/-- Embedding of `get_preds_given_threshold` (lines 804-806):
`torch.tensor([-1 if score > zeta else 1 for score in scores])`. -/
def get_preds_given_threshold (zeta : K) (scores : List K) : List ℤ :=
  scores.map (fun score => if score > zeta then -1 else 1)

/-- Embedding of `get_accuracy_score` (lines 799-801):
`torch.sum(pred == truth) / truth.size()[0]`, the elementwise-agreement
count divided by the length of the truth tensor. -/
def get_accuracy_score (pred truth : List ℤ) : K :=
  (((pred.zip truth).countP (fun p => p.1 == p.2) : ℕ) : K) / truth.length

/-- Embedding of `torch.linspace(a, b, steps)`: `steps` equally spaced points from `a`
to `b` inclusive (`a + i * (b - a) / (steps - 1)`; for `steps = 1` the
division by zero yields `a` itself, matching torch's single point). -/
def torch_linspace (a b : K) (steps : ℕ) : List K :=
  (List.range steps).map (fun (i : ℕ) => a + (i : K) * (b - a) / ((steps : K) - 1))

/-- Embedding of `threshold_scan_acc_score` (lines 824-830): for each of
`steps` thresholds `zeta` on `torch.linspace(zeta_min, zeta_max, steps)`,
the accuracy of the predictions at that threshold. -/
def threshold_scan_acc_score (scores : List K) (truth_labels : List ℤ)
    (zeta_min zeta_max : K) (steps : ℕ) : List K :=
  (torch_linspace zeta_min zeta_max steps).map (fun zeta =>
    get_accuracy_score (get_preds_given_threshold zeta scores) truth_labels)

/-- Embedding of `get_truth_labels` (lines 809-813): a block of `+1`s and
a block of `-1`s, **both** sized by `normal_series_set.size()[0]`; the
anomalous set is received but its size is never read. -/
def get_truth_labels (normal_series_set anomalous_series_set : List (List K)) :
    List ℤ :=
  List.replicate normal_series_set.length 1
    ++ List.replicate normal_series_set.length (-1)

/-- Embedding of `get_norm_and_anom_scores` (lines 866-885): one anomaly
score per series of each set, normal scores first.  The per-series call
`get_anomaly_score(callable_proj, xt, T, alpha, mu, sigma, gamma_length,
n_samples)` (with the model parameters and its random draws) is bundled
into the function argument `score_fn`. -/
def get_norm_and_anom_scores (score_fn : List K → K)
    (X_norm X_anom : List (List K)) : List K :=
  X_norm.map score_fn ++ X_anom.map score_fn

/-- Embedding of the accuracy-list computation of `testing_workflow`
(lines 1019-1063).  The scores of the trained model are `opt_scores`;
`rand_scores seed` are the scores of the random model with that seed
(both bundle the `get_norm_and_anom_scores` calls on the generated
validation sets).  As in the source, the first accuracy uses
`best_zetas[0]`, and the loop `for zeta, seed in zip(best_zetas[1:],
random_model_seeds)` also computes its predictions with
`best_zetas[0]`: the loop variable `zeta` (`p.1` below) is never used. -/
def testing_workflow_accs (best_zetas : List K) (random_model_seeds : List ℕ)
    (opt_scores : List K) (rand_scores : ℕ → List K)
    (truth_labels : List ℤ) : List K :=
  get_accuracy_score
      (get_preds_given_threshold (best_zetas.getD 0 0) opt_scores) truth_labels
    :: (((best_zetas.drop 1).zip random_model_seeds).map (fun p =>
        get_accuracy_score
          (get_preds_given_threshold (best_zetas.getD 0 0) (rand_scores p.2))
          truth_labels))

/-- One step of `train_model_gradients` (lines 619-662), i.e. one
`opt.step(closure)`: draw the next batch from the cycler, evaluate the
loss at the current parameters (the closure calls `get_loss` with
`next(cycler)` and the current `alpha, mu, sigma`), then let the
optimizer update the parameters.  `V` is the opaque tensor type of one
parameter, `B` the batch type, `C` the cycler-state type; the torch
optimizer (`torch.optim.Adam` and its internal moments, folded into
`V`) is the abstract `opt_update`. -/
def train_step {V B C : Type} (next_batch : C → B × C)
    (loss_fn : V → V → V → B → K) (opt_update : V → V → V → B → V × V × V)
    (s : (V × V × V) × C) : K × ((V × V × V) × C) :=
  let bc := next_batch s.2
  let loss := loss_fn s.1.1 s.1.2.1 s.1.2.2 bc.1
  (loss, (opt_update s.1.1 s.1.2.1 s.1.2.2 bc.1, bc.2))

/-- The training loop of `train_model_gradients`: `batch_iterations`
steps, appending each loss to the history, returning the history and
the final state. -/
def train_go {S : Type} (step : S → K × S) : ℕ → S → List K × S
  | 0, s => ([], s)
  | batch_iterations + 1, s =>
      let ls := step s
      let r := train_go step batch_iterations ls.2
      (ls.1 :: r.1, r.2)

/-- The `results_dict` returned by `train_model_gradients`: the loss
history and the `opt_params` entries `alpha`, `mu`, `sigma`
(`opt.param_groups[0]["params"][0..2]`, in the insertion order of
`init_params`). -/
structure TrainResult (K V : Type) where
  loss_history : List K
  opt_alpha : V
  opt_mu : V
  opt_sigma : V

/-- Embedding of `train_model_gradients` (lines 619-662): run
`batch_iterations` optimizer steps from the initial parameters
`init_params = (alpha, mu, sigma)` and initial cycler state, and return
the loss history together with the parameters held by the optimizer at
the end. -/
def train_model_gradients {V B C : Type} (next_batch : C → B × C)
    (loss_fn : V → V → V → B → K) (opt_update : V → V → V → B → V × V × V)
    (batch_iterations : ℕ) (init_params : V × V × V) (cycler : C) :
    TrainResult K V :=
  let r := train_go (train_step next_batch loss_fn opt_update)
    batch_iterations (init_params, cycler)
  ⟨r.1, r.2.1.1, r.2.1.2.1, r.2.1.2.2⟩

/-- The batches a `torch.utils.data.DataLoader` with `batch_size = bs`
yields over a list: consecutive chunks of `bs` elements, the last chunk
possibly shorter (for `bs ≥ 1`; the loader rejects `bs = 0`). -/
def to_batches {α : Type} (bs : ℕ) : List α → List (List α)
  | [] => []
  | x :: xs => (x :: xs.take (bs - 1)) :: to_batches bs (xs.drop (bs - 1))
termination_by l => l.length
decreasing_by simp only [List.length_cons, List.length_drop]; omega

/-- The state of a `DataGetter` (lines 333-388): the stored data set `X`,
the batch size, the list `data` of not-yet-served batches (served from
its end, as `list.pop()` pops the last element), and the number of
refills so far (used to index the shuffles drawn from the global torch
RNG). -/
structure DataGetter (α : Type) where
  X : List α
  batch_size : ℕ
  data : List (List α)
  refills : ℕ

/-- Embedding of `DataGetter.__next__` (lines 373-388): try
`self.data.pop()`; on `IndexError` (empty list) refill `data` via
`_init_data` with a complete pass of a freshly shuffled `DataLoader`
over `X` and pop again.  `shuffle r X` is the permutation the
`DataLoader` draws for the `r`-th refill.  The result is `none` exactly
when the second pop also raises (refill produced no batch), which is
the only uncaught error path. -/
def DataGetter.next {α : Type} (shuffle : ℕ → List α → List α)
    (s : DataGetter α) : Option (List α) × DataGetter α :=
  match s.data.getLast? with
  | some b => (some b, { s with data := s.data.dropLast })
  | none =>
      match (to_batches s.batch_size (shuffle s.refills s.X)).getLast? with
      | some b =>
          (some b, { s with
            data := (to_batches s.batch_size (shuffle s.refills s.X)).dropLast,
            refills := s.refills + 1 })
      | none => (none, { s with refills := s.refills + 1 })

/-- Iterate `k` successive calls of `next` on the cycler, collecting the results
(`none` marks an uncaught `IndexError`). -/
def run_batches {α : Type} (shuffle : ℕ → List α → List α) :
    ℕ → DataGetter α → List (Option (List α))
  | 0, _ => []
  | k + 1, s =>
      let os := DataGetter.next shuffle s
      os.1 :: run_batches shuffle k os.2

end QVR

namespace QChem

/-- The quantum-chemistry package chosen for the mean-field calculation
(`package='pyscf'` in the script). -/
inductive Package where
  | pyscf
  | psi4
deriving DecidableEq, Repr

/-- The fermionic-to-qubit mapping (`mapping='jordan_wigner'`). -/
inductive Mapping where
  | jordan_wigner
  | bravyi_kitaev
deriving DecidableEq, Repr

/-- The atomic basis set (`basis='sto-3g'`). -/
inductive Basis where
  | sto3g
deriving DecidableEq, Repr

/-- The external `pennylane.qchem` interface used by
`tutorial_quantum_chemistry.py`, abstracted over its opaque data:
`Sym`/`Coords` the parsed geometry, `HF` the mean-field (hdf5) result,
`H` a qubit Hamiltonian.  `read_structure` is the parse of the fixed
geometry file `h2o.xyz`; `electrons_of`/`orbitals_of` are the molecule's
electron and molecular-orbital counts recorded in the mean-field result
(which the script hard-codes as `electrons = 10`, `orbitals = 7` for
water in the sto-3g basis). -/
structure QChemPkg (Sym Coords HF H : Type) where
  read_structure : Sym × Coords
  meanfield : Sym → Coords → ℤ → ℕ → Basis → Package → HF
  active_space : ℕ → ℕ → ℕ → ℕ → List ℕ × List ℕ
  decompose : HF → Mapping → List ℕ → List ℕ → H
  electrons_of : HF → ℕ
  orbitals_of : HF → ℕ

/-- Modelled from the spec: `qchem.molecular_hamiltonian` is part of the
external pennylane-qchem package, not of this repository.  Per the
source's own description (tutorial_quantum_chemistry.py, lines 263-265,
"the `molecular_hamiltonian` function is used to automate the
construction of the electronic Hamiltonian using the functions described
above") it runs the mean-field calculation on the given geometry,
selects the active space from the molecule's electron and orbital
counts, decomposes with the requested mapping, and returns the qubit
Hamiltonian together with the number of qubits, which is twice the
number of active spin-orbital pairs, i.e. `2 * len(active)` (line 219 of
the script). -/
def molecular_hamiltonian {Sym Coords HF H : Type}
    (pkg : QChemPkg Sym Coords HF H) (symbols : Sym) (coordinates : Coords)
    (charge : ℤ) (mult : ℕ) (basis : Basis) (package : Package)
    (active_electrons active_orbitals : ℕ) (mapping : Mapping) : H × ℕ :=
  let hf := pkg.meanfield symbols coordinates charge mult basis package
  let ca := pkg.active_space (pkg.electrons_of hf) (pkg.orbitals_of hf)
    active_electrons active_orbitals
  (pkg.decompose hf mapping ca.1 ca.2, 2 * ca.2.length)

/-- The step-by-step construction of the script
(tutorial_quantum_chemistry.py, lines 58-260): `read_structure`, then
`meanfield` with charge 0, multiplicity 1, basis sto-3g, package pyscf,
then `active_space(10, 7, active_electrons=4, active_orbitals=4)`, then
`decompose` with the jordan_wigner mapping. -/
def stepwise_water_hamiltonian {Sym Coords HF H : Type}
    (pkg : QChemPkg Sym Coords HF H) : H :=
  let sc := pkg.read_structure
  let hf := pkg.meanfield sc.1 sc.2 0 1 Basis.sto3g Package.pyscf
  let ca := pkg.active_space 10 7 4 4
  pkg.decompose hf Mapping.jordan_wigner ca.1 ca.2

end QChem

namespace QVR

/-- A constant projector returning probability 1 (perfect rewinding),
used to instantiate the abstract simulator on concrete inputs. -/
def projW : ℚ → ℚ → Unit → List ℚ → ℚ := fun _ _ _ _ => 1

/-- A constant projector returning probability 1/2, a measured
probability in `[0, 1]`, used to instantiate the abstract simulator on
concrete real inputs. -/
noncomputable def projHalf : ℝ → ℝ → Unit → List ℝ → ℝ := fun _ _ _ _ => 1 / 2

/-- A concrete penalty function for instantiating `callable_penalty`. -/
def penW : ℚ → ℚ := fun sigma => sigma

/-- A concrete variational-parameter tensor `gamma` (entry `i` is `i`). -/
def gammaW : ℕ → ℚ := fun i => (i : ℚ)

/-- A concrete cycler-step for instantiating the training loop: the
cycler state is a counter, the batch is its current value. -/
def nextBatchW : ℕ → ℕ × ℕ := fun c => (c, c + 1)

/-- A concrete loss for instantiating the training loop. -/
def lossW : ℕ → ℕ → ℕ → ℕ → ℚ := fun a _ _ b => (a : ℚ) + b

/-- A concrete optimizer update for instantiating the training loop. -/
def updW : ℕ → ℕ → ℕ → ℕ → ℕ × ℕ × ℕ := fun a m s b => (a + b, m + 1, s)

/-- A concrete per-seed score table for instantiating the testing
workflow. -/
def randScoresW : ℕ → List ℚ := fun seed => [(seed : ℚ)]

/-- The identity shuffle (a permutation of every list), instantiating the
`DataLoader` shuffling. -/
def shuffleW : ℕ → List ℕ → List ℕ := fun _ l => l

/-- A concrete `DataGetter` state: data set `[1, 2, 3]`, batch size 2,
no batches loaded yet. -/
def dgW : DataGetter ℕ := ⟨[1, 2, 3], 2, [], 0⟩

end QVR

namespace QChem

/-- A trivial concrete instantiation of the external package interface,
whose mean-field result records 10 electrons and 7 orbitals (water in
the sto-3g basis). -/
def pkgW : QChemPkg Unit Unit Unit Unit where
  read_structure := ((), ())
  meanfield := fun _ _ _ _ _ _ => ()
  active_space := fun _ _ _ _ => ([0], [1, 2, 3, 4])
  decompose := fun _ _ _ _ => ()
  electrons_of := fun _ => 10
  orbitals_of := fun _ => 7

end QChem

namespace QVR

variable {K : Type} [LinearOrderedField K]

theorem list_range_map_sum {M : Type} [AddCommMonoid M] (f : ℕ → M) (n : ℕ) :
    ((List.range n).map f).sum = ∑ i ∈ Finset.range n, f i := by
  induction n with
  | zero => simp
  | succ n ih => rw [List.range_succ]; simp [ih, Finset.sum_range_succ]

theorem listMean_map_range (f : ℕ → K) (n : ℕ) :
    listMean ((List.range n).map f) = (∑ i ∈ Finset.range n, f i) / n := by
  simp [listMean, list_range_map_sum]

theorem listMean_bounds {l : List K} (h : ∀ x ∈ l, 0 ≤ x ∧ x ≤ 1) :
    0 ≤ listMean l ∧ listMean l ≤ 1 := by
  rcases l with _ | ⟨a, l⟩
  · simp [listMean]
  · have hlen : (0 : K) < ((a :: l).length : K) := by
      exact_mod_cast Nat.pos_of_ne_zero (by simp)
    constructor
    · exact div_nonneg (List.sum_nonneg (fun x hx => (h x hx).1)) hlen.le
    · rw [listMean, div_le_one hlen]
      have := List.sum_le_card_nsmul (a :: l) 1 (fun x hx => (h x hx).2)
      simpa using this

/-- C1: with `get_time_resolved=False`, `get_anomaly_score` returns the
mean over the `|T|` time points of the squared deviation of the
rewinding fidelity `F` from 1, and if `F` is identically 1 on the
series the score is 0. -/
theorem anomaly_score_is_mean_squared_deviation {A : Type}
    (callable_proj : K → K → A → List K → K) (x T : List K) (alpha_star : A)
    (mu_star sigma_star : K) (randns : List (List (List K))) :
    get_anomaly_score callable_proj x T alpha_star mu_star sigma_star randns false
      = ScoreResult.meanOnly ((∑ i ∈ Finset.range T.length,
          (1 - F callable_proj (x.getD i 0) (T.getD i 0) alpha_star mu_star
            sigma_star (randns.getD i [])) ^ 2) / (T.length : K))
    ∧ ((∀ i ∈ Finset.range T.length,
          F callable_proj (x.getD i 0) (T.getD i 0) alpha_star mu_star
            sigma_star (randns.getD i []) = 1) →
        get_anomaly_score callable_proj x T alpha_star mu_star sigma_star randns false
          = ScoreResult.meanOnly 0) := by
  have hrfl : get_anomaly_score callable_proj x T alpha_star mu_star sigma_star
      randns false
      = ScoreResult.meanOnly (listMean ((List.range T.length).map (fun i =>
          (1 - F callable_proj (x.getD i 0) (T.getD i 0) alpha_star mu_star
            sigma_star (randns.getD i [])) ^ 2))) := rfl
  constructor
  · rw [hrfl, listMean_map_range]
  · intro hF
    rw [hrfl, listMean_map_range]
    have hz : ∀ i ∈ Finset.range T.length,
        (1 - F callable_proj (x.getD i 0) (T.getD i 0) alpha_star mu_star
          sigma_star (randns.getD i [])) ^ 2 = 0 := by
      intro i hi
      rw [hF i hi]
      ring
    rw [Finset.sum_congr rfl hz]
    simp

theorem anomaly_score_is_mean_squared_deviation_witness :
    (∀ i ∈ Finset.range ([(0 : ℚ)]).length,
        F projW ([(0 : ℚ)].getD i 0) ([(0 : ℚ)].getD i 0) () 0 1
          ([[[(0 : ℚ)]]].getD i []) = 1)
    ∧ get_anomaly_score projW [(0 : ℚ)] [(0 : ℚ)] () 0 1 [[[(0 : ℚ)]]] false
        = ScoreResult.meanOnly 0 := by
  have hF : ∀ i ∈ Finset.range ([(0 : ℚ)]).length,
      F projW ([(0 : ℚ)].getD i 0) ([(0 : ℚ)].getD i 0) () 0 1
        ([[[(0 : ℚ)]]].getD i []) = 1 := by
    intro i hi
    rw [Finset.mem_range] at hi
    simp only [List.length_cons, List.length_nil] at hi
    have h0 : i = 0 := by omega
    subst h0
    simp [F, projW, listMean]
  exact ⟨hF, (anomaly_score_is_mean_squared_deviation projW [0] [0] () 0 1
    [[[(0 : ℚ)]]]).2 hF⟩

/-- C2: `get_loss` is one half of the mean over the batch of the squared
deviation of `F` from 1, plus the penalty evaluated at `sigma`, and
nothing else. -/
theorem loss_is_regularized_mse {A : Type}
    (callable_proj : K → K → A → List K → K) (X_batch T_batch : List K)
    (alpha : A) (mu sigma : K) (randns : List (List (List K)))
    (callable_penalty : K → K) (hbatch : 0 < X_batch.length) :
    get_loss callable_proj (X_batch, T_batch) alpha mu sigma randns callable_penalty
      = (1 / 2) * ((∑ i ∈ Finset.range X_batch.length,
          (1 - F callable_proj (X_batch.getD i 0) (T_batch.getD i 0) alpha mu
            sigma (randns.getD i [])) ^ 2) / (X_batch.length : K))
        + callable_penalty sigma := by
  have hrfl : get_loss callable_proj (X_batch, T_batch) alpha mu sigma randns
      callable_penalty
      = (1 / 2) * listMean ((List.range X_batch.length).map (fun i =>
          (1 - F callable_proj (X_batch.getD i 0) (T_batch.getD i 0) alpha mu
            sigma (randns.getD i [])) ^ 2)) + callable_penalty sigma := rfl
  rw [hrfl, listMean_map_range]

theorem loss_is_regularized_mse_witness :
    0 < [(0 : ℚ)].length
    ∧ get_loss projW ([(0 : ℚ)], [(0 : ℚ)]) () 0 1 [[[(0 : ℚ)]]] penW
        = (1 / 2) * ((∑ i ∈ Finset.range [(0 : ℚ)].length,
            (1 - F projW ([(0 : ℚ)].getD i 0) ([(0 : ℚ)].getD i 0) () 0 1
              ([[[(0 : ℚ)]]].getD i [])) ^ 2) / (([(0 : ℚ)].length : ℕ) : ℚ))
          + penW 1 :=
  ⟨by simp, loss_is_regularized_mse projW [0] [0] () 0 1 [[[(0 : ℚ)]]] penW
    (by simp)⟩

theorem F_mem_unitInterval {A : Type} {callable_proj : K → K → A → List K → K}
    (hproj : ∀ xt t alpha gamma, 0 ≤ callable_proj xt t alpha gamma
      ∧ callable_proj xt t alpha gamma ≤ 1)
    (xt t : K) (alpha : A) (mu sigma : K) (randn : List (List K)) :
    0 ≤ F callable_proj xt t alpha mu sigma randn
      ∧ F callable_proj xt t alpha mu sigma randn ≤ 1 := by
  refine listMean_bounds ?_
  intro y hy
  rw [List.mem_map] at hy
  obtain ⟨z, _, rfl⟩ := hy
  exact hproj _ _ _ _

/-- C5: with a projector valued in `[0, 1]`, a non-empty batch, `tau > 0`
and `sigma ≠ 0`, `get_loss` with the arctan penalty lies strictly
between 0 and 1: the MSE term is in `[0, 1/2]` and the penalty is in
`(0, 1/2)`. -/
theorem loss_in_open_unit_interval {A : Type}
    (callable_proj : ℝ → ℝ → A → List ℝ → ℝ)
    (hproj : ∀ xt t alpha gamma, 0 ≤ callable_proj xt t alpha gamma
      ∧ callable_proj xt t alpha gamma ≤ 1)
    (X_batch T_batch : List ℝ) (alpha : A) (mu sigma : ℝ)
    (randns : List (List (List ℝ))) (tau : ℝ)
    (hbatch : X_batch ≠ []) (htau : 0 < tau) (hsigma : sigma ≠ 0) :
    0 < get_loss callable_proj (X_batch, T_batch) alpha mu sigma randns
        (callable_arctan_penalty tau)
      ∧ get_loss callable_proj (X_batch, T_batch) alpha mu sigma randns
        (callable_arctan_penalty tau) < 1 := by
  have hmse : 0 ≤ listMean ((List.range X_batch.length).map (fun i =>
        (1 - F callable_proj (X_batch.getD i 0) (T_batch.getD i 0) alpha mu
          sigma (randns.getD i [])) ^ 2))
      ∧ listMean ((List.range X_batch.length).map (fun i =>
        (1 - F callable_proj (X_batch.getD i 0) (T_batch.getD i 0) alpha mu
          sigma (randns.getD i [])) ^ 2)) ≤ 1 := by
    refine listMean_bounds ?_
    intro y hy
    rw [List.mem_map] at hy
    obtain ⟨i, _, rfl⟩ := hy
    obtain ⟨hF0, hF1⟩ := F_mem_unitInterval hproj (X_batch.getD i 0)
      (T_batch.getD i 0) alpha mu sigma (randns.getD i [])
    constructor
    · positivity
    · have h1 : 0 ≤ 1 - F callable_proj (X_batch.getD i 0) (T_batch.getD i 0)
          alpha mu sigma (randns.getD i []) := by linarith
      have h2 : 1 - F callable_proj (X_batch.getD i 0) (T_batch.getD i 0)
          alpha mu sigma (randns.getD i []) ≤ 1 := by linarith
      calc (1 - F callable_proj (X_batch.getD i 0) (T_batch.getD i 0) alpha mu
            sigma (randns.getD i [])) ^ 2 ≤ 1 ^ 2 := by
              exact pow_le_pow_left₀ h1 h2 2
        _ = 1 := one_pow 2
  have hz : 0 < 2 * Real.pi * tau * |sigma| := by
    have : 0 < |sigma| := abs_pos.mpr hsigma
    have hpi := Real.pi_pos
    positivity
  have hpen_pos : 0 < callable_arctan_penalty tau sigma := by
    rw [callable_arctan_penalty]
    have harc : 0 < Real.arctan (2 * Real.pi * tau * |sigma|) := by
      rw [← Real.arctan_zero]
      exact Real.arctan_strictMono hz
    have hpi := Real.pi_pos
    positivity
  have hpen_lt : callable_arctan_penalty tau sigma < 1 / 2 := by
    rw [callable_arctan_penalty]
    have harc := Real.arctan_lt_pi_div_two (2 * Real.pi * tau * |sigma|)
    have hpi := Real.pi_pos
    calc (1 / Real.pi) * Real.arctan (2 * Real.pi * tau * |sigma|)
        < (1 / Real.pi) * (Real.pi / 2) := by
          exact mul_lt_mul_of_pos_left harc (by positivity)
      _ = 1 / 2 := by field_simp
  have hloss : get_loss callable_proj (X_batch, T_batch) alpha mu sigma randns
      (callable_arctan_penalty tau)
      = (1 / 2) * listMean ((List.range X_batch.length).map (fun i =>
          (1 - F callable_proj (X_batch.getD i 0) (T_batch.getD i 0) alpha mu
            sigma (randns.getD i [])) ^ 2))
        + callable_arctan_penalty tau sigma := rfl
  rw [hloss]
  constructor
  · nlinarith [hmse.1, hpen_pos]
  · nlinarith [hmse.2, hpen_lt]

theorem loss_in_open_unit_interval_witness :
    0 < get_loss projHalf ([(0 : ℝ)], [(0 : ℝ)]) () 0 1 [[[(0 : ℝ)]]]
        (callable_arctan_penalty 1)
      ∧ get_loss projHalf ([(0 : ℝ)], [(0 : ℝ)]) () 0 1 [[[(0 : ℝ)]]]
        (callable_arctan_penalty 1) < 1 :=
  loss_in_open_unit_interval projHalf
    (fun _ _ _ _ => ⟨by norm_num [projHalf], by norm_num [projHalf]⟩)
    [0] [0] () 0 1 [[[(0 : ℝ)]]] 1
    (List.cons_ne_nil 0 []) one_pos one_ne_zero

theorem combinations_length (i : ℕ) (l : List ℕ) :
    (combinations i l).length = Nat.choose l.length i := by
  induction l generalizing i with
  | nil => cases i <;> simp [combinations]
  | cons x xs ih =>
      cases i with
      | zero => simp [combinations]
      | succ i => simp [combinations, ih, Nat.choose_succ_succ]

theorem mem_combinations_length {c : List ℕ} {i : ℕ} {l : List ℕ}
    (h : c ∈ combinations i l) : c.length = i := by
  induction l generalizing i c with
  | nil =>
      cases i with
      | zero => simp only [combinations, List.mem_singleton] at h; simp [h]
      | succ i => simp [combinations] at h
  | cons x xs ih =>
      cases i with
      | zero => simp only [combinations, List.mem_singleton] at h; simp [h]
      | succ i =>
          rw [combinations, List.mem_append] at h
          rcases h with h | h
          · rw [List.mem_map] at h
            obtain ⟨c', hc', rfl⟩ := h
            simp [ih hc']
          · exact ih h

theorem D_go_eq_blocks (gamma : ℕ → K) {combs : List (List ℕ)}
    (h : ∀ c ∈ combs, c ≠ []) (cnt : ℕ) :
    D_go gamma cnt combs
      = (((combs.enumFrom cnt).map (fun p => comb_gates (gamma p.1) p.2)).flatten,
          cnt + combs.length) := by
  induction combs generalizing cnt with
  | nil => simp [D_go]
  | cons c rest ih =>
      have hc : c ≠ [] := h c (List.mem_cons_self c rest)
      have hrest : ∀ x ∈ rest, x ≠ [] :=
        fun x hx => h x (List.mem_cons_of_mem c hx)
      rcases c with _ | ⟨a, as⟩
      · exact absurd rfl hc
      · rw [D_go, ih hrest (cnt + 1), List.enumFrom_cons]
        simp [Nat.add_comm, Nat.add_assoc, Nat.add_left_comm]

theorem countRZ_cnot_chain (comb : List ℕ) :
    countRZ (cnot_chain K comb) = 0 := by
  rw [countRZ, cnot_chain, List.countP_map]
  exact List.countP_eq_zero.mpr (fun p _ => by simp)

theorem countRZ_comb_gates {theta : K} {comb : List ℕ} (h : comb ≠ []) :
    countRZ (comb_gates theta comb) = 1 := by
  rcases comb with _ | ⟨q, _ | ⟨q', qs⟩⟩
  · exact absurd rfl h
  · simp [comb_gates, countRZ]
  · have h1 := countRZ_cnot_chain (K := K) (q :: q' :: qs)
    have h2 : countRZ ((cnot_chain K (q :: q' :: qs)).reverse) = 0 := by
      rw [countRZ, List.countP_reverse]
      exact h1
    rw [comb_gates, countRZ, List.countP_append, List.countP_append]
    rw [countRZ] at h1 h2
    rw [h1, h2]
    simp [countRZ]

theorem countRZ_blocks (gamma : ℕ → K) {combs : List (List ℕ)}
    (h : ∀ c ∈ combs, c ≠ []) (cnt : ℕ) :
    countRZ (((combs.enumFrom cnt).map
      (fun p => comb_gates (gamma p.1) p.2)).flatten) = combs.length := by
  induction combs generalizing cnt with
  | nil => simp [countRZ]
  | cons c rest ih =>
      have hc : c ≠ [] := h c (List.mem_cons_self c rest)
      have hrest : ∀ x ∈ rest, x ≠ [] :=
        fun x hx => h x (List.mem_cons_of_mem c hx)
      rw [List.enumFrom_cons]
      simp only [List.map_cons, List.flatten_cons, countRZ, List.countP_append]
      rw [← countRZ, ← countRZ, countRZ_comb_gates hc, ih hrest (cnt + 1)]
      simp [Nat.add_comm]

theorem mem_D_combs_ne_nil {n k : ℕ} {c : List ℕ} (h : c ∈ D_combs n k) :
    c ≠ [] := by
  rw [D_combs, List.mem_flatMap] at h
  obtain ⟨i, hi, hc⟩ := h
  have hlen := mem_combinations_length hc
  have h1 : 1 ≤ i := (List.mem_range'_1.mp hi).1
  intro hnil
  rw [hnil] at hlen
  simp at hlen
  omega

theorem D_combs_length (n k : ℕ) :
    (D_combs n k).length = ∑ i ∈ Finset.Icc 1 k, Nat.choose n i := by
  induction k with
  | zero => simp [D_combs]
  | succ k ih =>
      rw [D_combs, List.range'_concat, List.flatMap_append]
      rw [List.length_append, ← D_combs, ih]
      rw [Finset.sum_Icc_succ_top (by omega)]
      simp [combinations_length, Nat.add_comm]

/-- C3: for `1 ≤ k ≤ n`, the circuit emitted by `D` consists, in the
order of the `combinations` enumeration over the non-empty subsets of
size at most `k`, of one block per subset (a bare `RZ` for a singleton;
the consecutive-pair `CNOT` chain, an `RZ` on the subset's last qubit,
and the reversed chain otherwise), with the `gamma` entries consumed
consecutively from index 0; in total it applies exactly
`∑ i ∈ [1, k], C(n, i)` `RZ` rotations and reads exactly that many
entries of `gamma`, and `k = None` defaults to `k = n`. -/
theorem D_walsh_structure (gamma : ℕ → K) (n k : ℕ)
    (h1 : 1 ≤ k) (hk : k ≤ n) :
    countRZ (D gamma n (some k)).1 = ∑ i ∈ Finset.Icc 1 k, Nat.choose n i
    ∧ (D gamma n (some k)).2 = ∑ i ∈ Finset.Icc 1 k, Nat.choose n i
    ∧ (D gamma n (some k)).1 = walsh_blocks gamma (D_combs n k)
    ∧ D gamma n (none : Option ℕ) = D gamma n (some n) := by
  have hne : ∀ c ∈ D_combs n k, c ≠ [] := fun c hc => mem_D_combs_ne_nil hc
  have hD : D gamma n (some k) = D_go gamma 0 (D_combs n k) := rfl
  have hgo := D_go_eq_blocks gamma hne 0
  refine ⟨?_, ?_, ?_, rfl⟩
  · rw [hD, hgo]
    exact (countRZ_blocks gamma hne 0).trans (D_combs_length n k)
  · rw [hD, hgo]
    simpa using D_combs_length n k
  · rw [hD, hgo, walsh_blocks]
    rfl

theorem D_walsh_structure_witness :
    (1 ≤ 2 ∧ 2 ≤ 3)
    ∧ (countRZ (D gammaW 3 (some 2)).1 = ∑ i ∈ Finset.Icc 1 2, Nat.choose 3 i
      ∧ (D gammaW 3 (some 2)).2 = ∑ i ∈ Finset.Icc 1 2, Nat.choose 3 i
      ∧ (D gammaW 3 (some 2)).1 = walsh_blocks gammaW (D_combs 3 2)
      ∧ D gammaW 3 (none : Option ℕ) = D gammaW 3 (some 3)) :=
  ⟨⟨by decide, by decide⟩,
    D_walsh_structure gammaW 3 2 (by decide) (by decide)⟩

theorem countP_zip_agree (pred truth : List ℤ)
    (hlen : pred.length = truth.length) :
    (pred.zip truth).countP (fun p => p.1 == p.2)
      = ((Finset.range truth.length).filter
          (fun j => pred.getD j 0 = truth.getD j 0)).card := by
  induction truth generalizing pred with
  | nil =>
      simp only [List.length_nil] at hlen
      rw [List.length_eq_zero] at hlen
      subst hlen
      simp
  | cons t ts ih =>
      rcases pred with _ | ⟨p, ps⟩
      · simp at hlen
      · have hlen' : ps.length = ts.length := by
          simpa using hlen
        rw [List.zip_cons_cons, List.countP_cons]
        rw [Finset.card_filter, List.length_cons, Finset.sum_range_succ']
        have hshift : ∀ i : ℕ,
            (if (p :: ps).getD (i + 1) 0 = (t :: ts).getD (i + 1) 0 then 1 else 0)
              = (if ps.getD i 0 = ts.getD i 0 then 1 else 0) := by
          intro i
          simp [List.getD_cons_succ]
        rw [Finset.sum_congr rfl (fun i _ => hshift i), ← Finset.card_filter]
        rw [ih ps hlen']
        by_cases hpt : p = t
        · simp [hpt]
        · simp [hpt, List.getD_cons_zero]

/-- C4: `get_preds_given_threshold` labels entry `j` as `-1` exactly when
`scores[j] > zeta` and `+1` otherwise; `get_accuracy_score` is the
number of agreeing entries divided by the length of the truth vector;
and `threshold_scan_acc_score` has length `steps`, its `i`-th entry
being that accuracy at the `i`-th of `steps` equally spaced thresholds
from `zeta_min` to `zeta_max` inclusive. -/
theorem threshold_functions_spec (zeta : K) (scores : List K)
    (pred truth : List ℤ) (zeta_min zeta_max : K) (steps : ℕ) :
    ((get_preds_given_threshold zeta scores).length = scores.length
      ∧ ∀ j, (hj : j < scores.length) →
          (((get_preds_given_threshold zeta scores).getD j 0 = -1
              ↔ scores.getD j 0 > zeta)
            ∧ ((get_preds_given_threshold zeta scores).getD j 0 = 1
              ↔ ¬ scores.getD j 0 > zeta)))
    ∧ (pred.length = truth.length →
        get_accuracy_score (K := K) pred truth
          = (((Finset.range truth.length).filter
              (fun j => pred.getD j 0 = truth.getD j 0)).card : K)
            / (truth.length : K))
    ∧ ((threshold_scan_acc_score scores truth zeta_min zeta_max steps).length
          = steps
      ∧ ∀ i, (hi : i < steps) →
          (threshold_scan_acc_score scores truth zeta_min zeta_max steps).getD i 0
            = get_accuracy_score
                (get_preds_given_threshold
                  (zeta_min + (i : K) * (zeta_max - zeta_min) / ((steps : K) - 1))
                  scores)
                truth) := by
  refine ⟨⟨by simp [get_preds_given_threshold], ?_⟩, ?_, ⟨?_, ?_⟩⟩
  · intro j hj
    have hj' : j < (scores.map
        (fun score => if score > zeta then (-1 : ℤ) else 1)).length := by
      simpa using hj
    rw [get_preds_given_threshold, List.getD_eq_getElem _ _ hj', List.getElem_map]
    by_cases hgt : scores[j] > zeta
    · rw [List.getD_eq_getElem _ _ hj, if_pos hgt]
      exact ⟨⟨fun _ => hgt, fun _ => rfl⟩, ⟨fun h => absurd h (by decide),
        fun h => absurd hgt h⟩⟩
    · rw [List.getD_eq_getElem _ _ hj, if_neg hgt]
      exact ⟨⟨fun h => absurd h (by decide), fun h => absurd h hgt⟩,
        ⟨fun _ => hgt, fun _ => rfl⟩⟩
  · intro hlen
    rw [get_accuracy_score, countP_zip_agree pred truth hlen]
  · rw [threshold_scan_acc_score, List.length_map, torch_linspace,
      List.length_map, List.length_range]
  · intro i hi
    have hi' : i < (torch_linspace zeta_min zeta_max steps).length := by
      rw [torch_linspace, List.length_map, List.length_range]
      exact hi
    have hi'' : i < ((torch_linspace zeta_min zeta_max steps).map
        (fun z => get_accuracy_score (K := K)
          (get_preds_given_threshold z scores) truth)).length := by
      rw [List.length_map]
      exact hi'
    rw [threshold_scan_acc_score, List.getD_eq_getElem _ _ hi'', List.getElem_map]
    have hval : (torch_linspace zeta_min zeta_max steps)[i]
        = zeta_min + (i : K) * (zeta_max - zeta_min) / ((steps : K) - 1) := by
      simp only [torch_linspace, List.getElem_map, List.getElem_range]
    rw [hval]

theorem threshold_functions_spec_witness :
    ([(1 : ℤ), -1].length = [(1 : ℤ), 1].length)
    ∧ get_accuracy_score (K := ℚ) [(1 : ℤ), -1] [(1 : ℤ), 1]
        = (((Finset.range ([(1 : ℤ), 1]).length).filter
            (fun j => [(1 : ℤ), -1].getD j 0 = [(1 : ℤ), 1].getD j 0)).card : ℚ)
          / (([(1 : ℤ), 1]).length : ℚ) :=
  ⟨rfl, (threshold_functions_spec (K := ℚ) 0 [] [(1 : ℤ), -1] [(1 : ℤ), 1]
    0 0 0).2.1 rfl⟩

theorem train_go_spec {S : Type} (step : S → K × S) (iters : ℕ) (s : S) :
    (train_go step iters s).1.length = iters
    ∧ (train_go step iters s).2 = (fun st => (step st).2)^[iters] s
    ∧ ∀ j, j < iters → (train_go step iters s).1.getD j 0
        = (step ((fun st => (step st).2)^[j] s)).1 := by
  induction iters generalizing s with
  | zero => simp [train_go]
  | succ n ih =>
      obtain ⟨ihl, ihs, ihj⟩ := ih ((step s).2)
      have hunf : train_go step (n + 1) s
          = ((step s).1 :: (train_go step n ((step s).2)).1,
             (train_go step n ((step s).2)).2) := rfl
      refine ⟨?_, ?_, ?_⟩
      · rw [hunf]
        simp [ihl]
      · rw [hunf]
        simpa [Function.iterate_succ_apply] using ihs
      · intro j hj
        cases j with
        | zero => rw [hunf]; simp
        | succ j =>
            rw [hunf]
            simp only [List.getD_cons_succ, Function.iterate_succ_apply]
            exact ihj j (by omega)

/-- C7: `train_model_gradients` performs exactly `batch_iterations`
optimizer steps; the `j`-th recorded loss is the loss of the `j`-th
step (computed on the batch the cycler yields in the state reached
after `j` steps), recorded in order; and the returned `opt_params`
are the parameter triple held by the optimizer after the final step. -/
theorem train_model_gradients_spec {V B C : Type} (next_batch : C → B × C)
    (loss_fn : V → V → V → B → K) (opt_update : V → V → V → B → V × V × V)
    (batch_iterations : ℕ) (init_params : V × V × V) (cycler : C) :
    (train_model_gradients next_batch loss_fn opt_update batch_iterations
        init_params cycler).loss_history.length = batch_iterations
    ∧ (∀ j, j < batch_iterations →
        (train_model_gradients next_batch loss_fn opt_update batch_iterations
            init_params cycler).loss_history.getD j 0
          = (train_step next_batch loss_fn opt_update
              ((fun st => (train_step next_batch loss_fn opt_update st).2)^[j]
                (init_params, cycler))).1)
    ∧ ((train_model_gradients next_batch loss_fn opt_update batch_iterations
          init_params cycler).opt_alpha,
        (train_model_gradients next_batch loss_fn opt_update batch_iterations
          init_params cycler).opt_mu,
        (train_model_gradients next_batch loss_fn opt_update batch_iterations
          init_params cycler).opt_sigma)
        = ((fun st => (train_step next_batch loss_fn opt_update st).2)^[batch_iterations]
            (init_params, cycler)).1 := by
  obtain ⟨hl, hs, hj⟩ := train_go_spec (train_step next_batch loss_fn opt_update)
    batch_iterations (init_params, cycler)
  refine ⟨hl, hj, ?_⟩
  rw [← hs]
  rfl

theorem train_model_gradients_spec_witness :
    (train_model_gradients nextBatchW lossW updW 2
        ((0 : ℕ), (0 : ℕ), (0 : ℕ)) (0 : ℕ)).loss_history.length = 2
    ∧ (∀ j, j < 2 →
        (train_model_gradients nextBatchW lossW updW 2
            ((0 : ℕ), (0 : ℕ), (0 : ℕ)) (0 : ℕ)).loss_history.getD j 0
          = (train_step nextBatchW lossW updW
              ((fun st => (train_step nextBatchW lossW updW st).2)^[j]
                (((0 : ℕ), (0 : ℕ), (0 : ℕ)), (0 : ℕ)))).1)
    ∧ ((train_model_gradients nextBatchW lossW updW 2
          ((0 : ℕ), (0 : ℕ), (0 : ℕ)) (0 : ℕ)).opt_alpha,
        (train_model_gradients nextBatchW lossW updW 2
          ((0 : ℕ), (0 : ℕ), (0 : ℕ)) (0 : ℕ)).opt_mu,
        (train_model_gradients nextBatchW lossW updW 2
          ((0 : ℕ), (0 : ℕ), (0 : ℕ)) (0 : ℕ)).opt_sigma)
        = ((fun st => (train_step nextBatchW lossW updW st).2)^[2]
            (((0 : ℕ), (0 : ℕ), (0 : ℕ)), (0 : ℕ))).1 :=
  train_model_gradients_spec nextBatchW lossW updW 2 ((0 : ℕ), 0, 0) 0

/-- C8: the truth-label vector has length twice the number of normal
series, `+1` on the first half and `-1` on the second; it does not
depend on the anomalous set at all, so when the anomalous set has a
different number of series than the normal set, the label vector's
length differs from the number of scores that
`get_norm_and_anom_scores` produces. -/
theorem truth_labels_spec (score_fn : List K → K)
    (X_norm X_anom X_anom' : List (List K)) :
    (get_truth_labels X_norm X_anom).length = 2 * X_norm.length
    ∧ (∀ j, j < X_norm.length → (get_truth_labels X_norm X_anom).getD j 0 = 1)
    ∧ (∀ j, X_norm.length ≤ j → j < 2 * X_norm.length →
        (get_truth_labels X_norm X_anom).getD j 0 = -1)
    ∧ get_truth_labels X_norm X_anom = get_truth_labels X_norm X_anom'
    ∧ (X_anom.length ≠ X_norm.length →
        (get_truth_labels X_norm X_anom).length
          ≠ (get_norm_and_anom_scores score_fn X_norm X_anom).length) := by
  refine ⟨?_, ?_, ?_, rfl, ?_⟩
  · simp [get_truth_labels]
    omega
  · intro j hj
    have hj' : j < (List.replicate X_norm.length (1 : ℤ)).length := by
      simpa using hj
    rw [get_truth_labels, List.getD_append _ _ _ _ hj',
      List.getD_eq_getElem _ _ hj', List.getElem_replicate]
  · intro j hj1 hj2
    have hlen : (List.replicate X_norm.length (1 : ℤ)).length ≤ j := by
      simpa using hj1
    rw [get_truth_labels, List.getD_append_right _ _ _ _ hlen]
    have hj' : j - X_norm.length < (List.replicate X_norm.length (-1 : ℤ)).length := by
      simp only [List.length_replicate]
      omega
    rw [List.length_replicate, List.getD_eq_getElem _ _ hj', List.getElem_replicate]
  · intro hne
    simp only [get_truth_labels, get_norm_and_anom_scores, List.length_append,
      List.length_replicate, List.length_map]
    omega

theorem truth_labels_spec_witness :
    (([] : List (List ℚ)).length ≠ [[(0 : ℚ)]].length)
    ∧ (get_truth_labels [[(0 : ℚ)]] ([] : List (List ℚ))).length
        ≠ (get_norm_and_anom_scores listMean [[(0 : ℚ)]]
            ([] : List (List ℚ))).length :=
  ⟨by decide,
    (truth_labels_spec listMean [[(0 : ℚ)]] [] []).2.2.2.2 (by decide)⟩

theorem zip_map_snd_eq {α β γ : Type} (g : β → γ) (l l' : List α) (s : List β)
    (hlen : l.length = l'.length) :
    (l.zip s).map (fun p => g p.2) = (l'.zip s).map (fun p => g p.2) := by
  induction l generalizing l' s with
  | nil =>
      obtain rfl := List.length_eq_zero.mp hlen.symm
      rfl
  | cons a l ih =>
      rcases l' with _ | ⟨a', l'⟩
      · simp at hlen
      · rcases s with _ | ⟨b, s⟩
        · simp
        · simp only [List.zip_cons_cons, List.map_cons]
          rw [ih l' s (by simpa using hlen)]

/-- C9: every accuracy produced by the testing workflow — the trained
model's and each random model's — is evaluated at the trained model's
threshold `best_zetas[0]`; the per-model zetas carried by the loop are
never used, so replacing them by any other values (of the same number)
leaves the result unchanged. -/
theorem testing_workflow_threshold_fixed (z0 : K) (rest rest' : List K)
    (seeds : List ℕ) (opt_scores : List K) (rand_scores : ℕ → List K)
    (truth : List ℤ) :
    (∀ a ∈ testing_workflow_accs (z0 :: rest) seeds opt_scores rand_scores truth,
        ∃ scr, a = get_accuracy_score (get_preds_given_threshold z0 scr) truth)
    ∧ (rest.length = rest'.length →
        testing_workflow_accs (z0 :: rest) seeds opt_scores rand_scores truth
          = testing_workflow_accs (z0 :: rest') seeds opt_scores rand_scores truth) := by
  constructor
  · intro a ha
    rw [testing_workflow_accs] at ha
    simp only [List.getD_cons_zero] at ha
    rcases List.mem_cons.mp ha with h | h
    · exact ⟨opt_scores, h⟩
    · rw [List.mem_map] at h
      obtain ⟨p, _, rfl⟩ := h
      exact ⟨rand_scores p.2, rfl⟩
  · intro hlen
    rw [testing_workflow_accs, testing_workflow_accs]
    simp only [List.getD_cons_zero, List.drop_succ_cons, List.drop_zero]
    congr 1
    exact zip_map_snd_eq
      (fun s => get_accuracy_score (get_preds_given_threshold z0 (rand_scores s)) truth)
      rest rest' seeds hlen

theorem testing_workflow_threshold_fixed_witness :
    ([(1 : ℚ)].length = [(2 : ℚ)].length)
    ∧ testing_workflow_accs ((0 : ℚ) :: [1]) [5] [0] randScoresW []
        = testing_workflow_accs ((0 : ℚ) :: [2]) [5] [0] randScoresW [] :=
  ⟨rfl,
    (testing_workflow_threshold_fixed 0 [1] [2] [5] [0] randScoresW []).2 rfl⟩

theorem to_batches_flatten {α : Type} (bs : ℕ) (l : List α) :
    (to_batches bs l).flatten = l := by
  refine to_batches.induct bs (fun l => (to_batches bs l).flatten = l) ?_ ?_ l
  · simp [to_batches]
  · intro x xs ih
    rw [to_batches]
    simp only [List.flatten_cons, ih]
    rw [List.cons_append, List.take_append_drop]

theorem to_batches_ne_nil {α : Type} (bs : ℕ) {l : List α} (h : l ≠ []) :
    to_batches bs l ≠ [] := by
  rcases l with _ | ⟨x, xs⟩
  · exact absurd rfl h
  · rw [to_batches]
    exact List.cons_ne_nil _ _

theorem DataGetter_next_preserves {α : Type} (shuffle : ℕ → List α → List α)
    (s : DataGetter α) :
    ((DataGetter.next shuffle s).2).X = s.X
    ∧ ((DataGetter.next shuffle s).2).batch_size = s.batch_size := by
  unfold DataGetter.next
  split
  · exact ⟨rfl, rfl⟩
  · split
    · exact ⟨rfl, rfl⟩
    · exact ⟨rfl, rfl⟩

theorem DataGetter_next_isSome {α : Type} (shuffle : ℕ → List α → List α)
    (s : DataGetter α) (hsh : ∀ r, shuffle r s.X ≠ []) :
    ((DataGetter.next shuffle s).1).isSome := by
  unfold DataGetter.next
  split
  · rfl
  · split
    · rfl
    · rename_i hnone
      exfalso
      have hfr : to_batches s.batch_size (shuffle s.refills s.X) ≠ [] :=
        to_batches_ne_nil _ (hsh s.refills)
      rw [List.getLast?_eq_none_iff] at hnone
      exact hfr hnone

theorem run_batches_isSome {α : Type} (shuffle : ℕ → List α → List α)
    (X0 : List α) (hsh : ∀ (r : ℕ) (l : List α), l = X0 → shuffle r l ≠ []) :
    ∀ (k : ℕ) (s : DataGetter α), s.X = X0 →
      ∀ o ∈ run_batches shuffle k s, o.isSome := by
  intro k
  induction k with
  | zero =>
      intro s _ o ho
      simp [run_batches] at ho
  | succ k ih =>
      intro s hs o ho
      rw [run_batches] at ho
      rcases List.mem_cons.mp ho with rfl | h
      · exact DataGetter_next_isSome shuffle s (fun r => hsh r s.X hs)
      · exact ih _ (((DataGetter_next_preserves shuffle s).1).trans hs) o h

/-- C10: for a non-empty data set and batch size at least 1, `__next__`
never raises: the only caught error refills `data` with a complete
freshly shuffled pass over `X` (the refill batches concatenate to a
permutation of `X`) and pops a batch, so iterating the cycler yields a
batch at every step, indefinitely. -/
theorem data_getter_never_raises {α : Type} (shuffle : ℕ → List α → List α)
    (s : DataGetter α) (hX : s.X ≠ []) (hbs : 1 ≤ s.batch_size)
    (hperm : ∀ r, (shuffle r s.X).Perm s.X) (k : ℕ) :
    (∀ o ∈ run_batches shuffle k s, o.isSome)
    ∧ (to_batches s.batch_size (shuffle s.refills s.X)).flatten.Perm s.X := by
  have hsh : ∀ r, shuffle r s.X ≠ [] := by
    intro r hnil
    have hlen := (hperm r).length_eq
    rw [hnil] at hlen
    simp only [List.length_nil] at hlen
    exact hX (List.length_eq_zero.mp hlen.symm)
  refine ⟨?_, ?_⟩
  · exact run_batches_isSome shuffle s.X
      (fun r l hl => by rw [hl]; exact hsh r) k s rfl
  · rw [to_batches_flatten]
    exact hperm s.refills

theorem data_getter_never_raises_witness :
    (dgW.X ≠ [] ∧ 1 ≤ dgW.batch_size)
    ∧ ((∀ o ∈ run_batches shuffleW 5 dgW, o.isSome)
      ∧ (to_batches dgW.batch_size (shuffleW dgW.refills dgW.X)).flatten.Perm dgW.X) :=
  ⟨⟨by decide, by decide⟩,
    data_getter_never_raises shuffleW dgW (by decide) (by decide)
      (fun _ => List.Perm.refl _) 5⟩

end QVR

namespace QChem

/-- C6: the step-by-step construction of the water Hamiltonian
(`read_structure`, `meanfield`, `active_space`, `decompose`) produces
the same qubit Hamiltonian as the single `molecular_hamiltonian` call
with the same inputs, provided the mean-field result records the 10
electrons and 7 orbitals the script hard-codes; and the returned qubit
count is twice the number of active orbitals. -/
theorem molecular_hamiltonian_refines_stepwise {Sym Coords HF H : Type}
    (pkg : QChemPkg Sym Coords HF H)
    (hel : pkg.electrons_of (pkg.meanfield pkg.read_structure.1
        pkg.read_structure.2 0 1 Basis.sto3g Package.pyscf) = 10)
    (horb : pkg.orbitals_of (pkg.meanfield pkg.read_structure.1
        pkg.read_structure.2 0 1 Basis.sto3g Package.pyscf) = 7) :
    stepwise_water_hamiltonian pkg
      = (molecular_hamiltonian pkg pkg.read_structure.1 pkg.read_structure.2
          0 1 Basis.sto3g Package.pyscf 4 4 Mapping.jordan_wigner).1
    ∧ (molecular_hamiltonian pkg pkg.read_structure.1 pkg.read_structure.2
        0 1 Basis.sto3g Package.pyscf 4 4 Mapping.jordan_wigner).2
      = 2 * (pkg.active_space 10 7 4 4).2.length := by
  constructor
  · simp only [stepwise_water_hamiltonian, molecular_hamiltonian, hel, horb]
  · simp only [molecular_hamiltonian, hel, horb]

theorem molecular_hamiltonian_refines_stepwise_witness :
    (pkgW.electrons_of (pkgW.meanfield pkgW.read_structure.1
        pkgW.read_structure.2 0 1 Basis.sto3g Package.pyscf) = 10
      ∧ pkgW.orbitals_of (pkgW.meanfield pkgW.read_structure.1
          pkgW.read_structure.2 0 1 Basis.sto3g Package.pyscf) = 7)
    ∧ (stepwise_water_hamiltonian pkgW
        = (molecular_hamiltonian pkgW pkgW.read_structure.1
            pkgW.read_structure.2 0 1 Basis.sto3g Package.pyscf 4 4
            Mapping.jordan_wigner).1
      ∧ (molecular_hamiltonian pkgW pkgW.read_structure.1
          pkgW.read_structure.2 0 1 Basis.sto3g Package.pyscf 4 4
          Mapping.jordan_wigner).2
        = 2 * (pkgW.active_space 10 7 4 4).2.length) :=
  ⟨⟨rfl, rfl⟩, molecular_hamiltonian_refines_stepwise pkgW rfl rfl⟩

end QChem
